import Mathlib

/-!
A shallow embedding of the `ailurus-kv` storage engine (a Bitcask-style
key-value store) and proofs about its specification claims.

Source files embedded here:
  - `src/data/log_record.rs` : the log-record codec (CRC-32, type byte,
    varint sizes, key, value).
  - `src/data/data_file.rs`  : `DataFile::read`, positional decode of one
    record from a segment.
  - `src/index/btree.rs`     : the `BTree` index (an ordered map), its
    rebuild loop `BTree::index`, and `BtreeIterator`.
  - `src/engine.rs`          : `Engine::{new, put, get, delete, at,
    append_log_record}`.

Bytes are modelled as `Nat` values (< 256 in every reachable state); files
are `List Nat`; `u64`/`usize` arithmetic that can wrap is made explicit
with `% 2 ^ 64`.  Rust panics (`unreachable!()`, out-of-bounds `Buf`
advances, exhausted fuel standing in for diverging loops) are modelled by
the dedicated result `RunErr.panic`, while `Result::Err(Errors::…)` values
are `RunErr.fromErrors`.
-/

set_option maxRecDepth 100000

namespace AilurusKV

/-- The error enum of `src/errors.rs` (variants used by the embedded core). -/
inductive Errors where
  | FailToOpenFile
  | FailToReadFromFile
  | FailToWriteToFile
  | FailToSyncFile
  | EmptyKey
  | KeyNotFound
  | DatafileNotFound
  | DatafileSizeTooSmall
  | DatafileCorrupted
  | IndexUpdateFail
  | CreateDbDirFail
  | ReadDbDirFail
  | InvalidDbPath
  | InternalError
  deriving DecidableEq

/-- Outcome of running a fallible operation: an `Errors` value returned
through `Result`, or a Rust panic (`unreachable!()`, `todo!()`, an
out-of-bounds buffer advance). -/
inductive RunErr where
  | fromErrors (e : Errors)
  | panic
  deriving DecidableEq

/-- `LogRecordType` from `src/data/log_record.rs`. -/
inductive LogRecordType where
  | Normal
  | Deleted
  deriving DecidableEq

/-- `impl From<LogRecordType> for u8`: Normal ↦ 1, Deleted ↦ 2. -/
def LogRecordType.toByte : LogRecordType → Nat
  | .Normal => 1
  | .Deleted => 2

/-- `impl TryFrom<u8> for LogRecordType`: 1 ↦ Normal, 2 ↦ Deleted, any
other byte is `Errors::DatafileCorrupted`. -/
def LogRecordType.tryFrom (b : Nat) : Except Errors LogRecordType :=
  if b = 1 then .ok .Normal
  else if b = 2 then .ok .Deleted
  else .error .DatafileCorrupted

/-- `LogRecord` from `src/data/log_record.rs`: key bytes, value bytes and
a record type. -/
structure LogRecord where
  key : List Nat
  value : List Nat
  recordType : LogRecordType
  deriving DecidableEq

/-- `LogRecordPos`: (file id, byte offset of the record's first byte). -/
structure LogRecordPos where
  fileId : Nat
  offset : Nat
  deriving DecidableEq

/-! ### Varints (prost `encode_length_delimiter` / `decode_length_delimiter`)

The length delimiter is the standard LEB128 varint: low 7 bits per byte,
high bit set on every byte except the last.  The encoder is written with
explicit fuel so that it is structurally recursive (the fuel `n + 1`
always suffices because `n / 128 < n` for `n ≥ 128`). -/

def encodeVarintFuel : Nat → Nat → List Nat
  | 0, _ => []
  | fuel + 1, n =>
    if n < 128 then [n] else (n % 128 + 128) :: encodeVarintFuel fuel (n / 128)

/-- prost `encode_length_delimiter`: the LEB128 bytes of `n`. -/
def encodeVarint (n : Nat) : List Nat :=
  encodeVarintFuel (n + 1) n

/-- prost `length_delimiter_len`: the byte length of the varint of `n`. -/
def lengthDelimiterLen (n : Nat) : Nat :=
  (encodeVarint n).length

/-- prost `decode_length_delimiter`, acting on the front of a byte list.
At most 10 bytes are consumed and the decoded value must fit in a `u64`
(prost rejects longer or overflowing varints); on success it returns the
value together with the unconsumed remainder. -/
def decodeVarintAux : Nat → Nat → Nat → List Nat → Except Unit (Nat × List Nat)
  | 0, _, _, _ => .error ()
  | _ + 1, _, _, [] => .error ()
  | fuel + 1, shift, acc, b :: rest =>
    let b := b % 256
    if b < 128 then
      let v := acc + b * 2 ^ shift
      if v < 2 ^ 64 then .ok (v, rest) else .error ()
    else
      decodeVarintAux fuel (shift + 7) (acc + (b - 128) * 2 ^ shift) rest

def decodeVarint (l : List Nat) : Except Unit (Nat × List Nat) :=
  decodeVarintAux 10 0 0 l

/-! ### CRC-32 (crc32fast, the IEEE polynomial)

Reflected CRC-32 with polynomial `0xEDB88320`, initial value
`0xFFFFFFFF` and final xor `0xFFFFFFFF` — the function computed by the
`crc32fast` crate used in `LogRecord::encode` / `LogRecord::crc`. -/

def crc32Step (c : Nat) : Nat :=
  if c % 2 = 1 then Nat.xor (c / 2) 0xEDB88320 else c / 2

def crc32Byte (c : Nat) (b : Nat) : Nat :=
  crc32Step (crc32Step (crc32Step (crc32Step
    (crc32Step (crc32Step (crc32Step (crc32Step (Nat.xor c (b % 256)))))))))

def crc32 (l : List Nat) : Nat :=
  Nat.xor (l.foldl crc32Byte 0xFFFFFFFF) 0xFFFFFFFF

/-- The four bytes written by `BytesMut::put_u32` (big-endian). -/
def u32BytesBE (n : Nat) : List Nat :=
  [n / 2 ^ 24 % 256, n / 2 ^ 16 % 256, n / 2 ^ 8 % 256, n % 256]

/-- The four bytes a little-endian u32 write (`put_u32_le`) would produce;
this is the layout the specification's "little-endian CRC-32" describes.
Modelled from the spec for comparison against the source's `encode`. -/
def u32BytesLE (n : Nat) : List Nat :=
  [n % 256, n / 2 ^ 8 % 256, n / 2 ^ 16 % 256, n / 2 ^ 24 % 256]

/-- `LogRecord::compress`: Type ‖ KeySize ‖ ValueSize ‖ Key ‖ Value. -/
def LogRecord.compress (r : LogRecord) : List Nat :=
  r.recordType.toByte ::
    (encodeVarint r.key.length ++ encodeVarint r.value.length ++ r.key ++ r.value)

/-- `LogRecord::crc`: CRC-32 of the compressed record. -/
def LogRecord.crc (r : LogRecord) : Nat :=
  crc32 r.compress

/-- `LogRecord::encode`: CRC (4 bytes, via `put_u32`) followed by the
compressed record. -/
def LogRecord.encode (r : LogRecord) : List Nat :=
  u32BytesBE r.crc ++ r.compress

/-- `LogRecord::size`: the encoded length. -/
def LogRecord.size (r : LogRecord) : Nat :=
  r.encode.length

/-! ### `DataFile::read` (src/data/data_file.rs) -/

/-- `max_header_sz` from `DataFile::read`:
4 (CRC) + 1 (Type) + 2 × `length_delimiter_len(u32::MAX)`. -/
def maxHeaderSz : Nat :=
  4 + 1 + 2 * lengthDelimiterLen (2 ^ 32 - 1)

/-- `IOManager::read` backed by `read_exact_at`: fill a buffer of
`bufLen` bytes starting at `offset`, failing
(`Errors::FailToReadFromFile`) unless the file holds that many bytes. -/
def ioRead (content : List Nat) (bufLen offset : Nat) :
    Except RunErr (List Nat) :=
  if offset + bufLen ≤ content.length then .ok ((content.drop offset).take bufLen)
  else .error (.fromErrors .FailToReadFromFile)

/-- `header.get_u32()`: the big-endian u32 in the first four header
bytes. -/
def getU32BE (b0 b1 b2 b3 : Nat) : Nat :=
  b0 % 256 * 2 ^ 24 + b1 % 256 * 2 ^ 16 + b2 % 256 * 2 ^ 8 + b3 % 256

/-- The tail of `DataFile::read`: build the `LogRecord` (whose
`record_type: record_type.try_into()?` is the argument here) from the
`kv_buf` slices, then compare the stored CRC with the record's own;
a mismatch is `DatafileCorrupted`. -/
def buildRecord (crcStored keySize : Nat) (kvBuf : List Nat) :
    Except Errors LogRecordType → Except RunErr (Option LogRecord)
  | .error e => .error (.fromErrors e)
  | .ok ty =>
    if crcStored = (LogRecord.mk (kvBuf.take keySize) (kvBuf.drop keySize) ty).crc
    then .ok (some (LogRecord.mk (kvBuf.take keySize) (kvBuf.drop keySize) ty))
    else .error (.fromErrors .DatafileCorrupted)

/-- Continuation of `DataFile::read` on the result of the `kv_buf` read:
an I/O error propagates, otherwise the record is built with
`LogRecordType::try_from` on the type byte. -/
def afterKvRead (crcStored t keySize : Nat) :
    Except RunErr (List Nat) → Except RunErr (Option LogRecord)
  | .error e => .error e
  | .ok kvBuf => buildRecord crcStored keySize kvBuf (LogRecordType.tryFrom t)

/-- The part of `DataFile::read` after both sizes decoded: the sizes both
zero mean EndOfFile; otherwise read `key_size + value_size` bytes at
`offset + header_size` and finish. -/
def finishRead (content : List Nat) (offset crcStored t keySize valueSize : Nat) :
    Except RunErr (Option LogRecord) :=
  if keySize = 0 ∧ valueSize = 0 then .ok none
  else
    afterKvRead crcStored t keySize
      (ioRead content (keySize + valueSize)
        (offset + (4 + 1 + lengthDelimiterLen keySize + lengthDelimiterLen valueSize)))

/-- Decoding of `value_size` in `DataFile::read`: a varint error is
`DatafileCorrupted`. -/
def afterValueSize (content : List Nat) (offset crcStored t keySize : Nat) :
    Except Unit (Nat × List Nat) → Except RunErr (Option LogRecord)
  | .error _ => .error (.fromErrors .DatafileCorrupted)
  | .ok (valueSize, _) => finishRead content offset crcStored t keySize valueSize

/-- Decoding of `key_size` in `DataFile::read`: a varint error is
`DatafileCorrupted`. -/
def afterKeySize (content : List Nat) (offset crcStored t : Nat) :
    Except Unit (Nat × List Nat) → Except RunErr (Option LogRecord)
  | .error _ => .error (.fromErrors .DatafileCorrupted)
  | .ok (keySize, hrest2) =>
    afterValueSize content offset crcStored t keySize (decodeVarint hrest2)

/-- The header parse of `DataFile::read`: `get_u32` (CRC), `get_u8`
(type byte), then the two size varints.  A header shorter than five bytes
makes the `bytes` crate's `get_u32`/`get_u8` advance past the end, a
panic. -/
def parseHeader (content : List Nat) (offset : Nat) :
    List Nat → Except RunErr (Option LogRecord)
  | b0 :: b1 :: b2 :: b3 :: t :: hrest =>
    afterKeySize content offset (getU32BE b0 b1 b2 b3) t (decodeVarint hrest)
  | _ => .error .panic

/-- Continuation of `DataFile::read` on the result of the header read. -/
def afterHeaderRead (content : List Nat) (offset : Nat) :
    Except RunErr (List Nat) → Except RunErr (Option LogRecord)
  | .error e => .error e
  | .ok header => parseHeader content offset header

/-- `DataFile::read(offset)` on a file with the given byte `content`.
`remaining` is the `u64` subtraction `size - offset`, which wraps in a
release build (the debug build would already panic on underflow; either
way an offset past the end never reaches a normal return).  A `remaining`
of exactly `max_header_sz` falls into the source's `unreachable!()` arm,
modelled as a panic.  `Ok none` is the EndOfFile result.  The stages
after the speculative header read are the helper functions above. -/
def readAt (content : List Nat) (offset : Nat) :
    Except RunErr (Option LogRecord) :=
  let size := content.length
  let remaining := (size + 2 ^ 64 - offset) % 2 ^ 64
  if remaining = 0 then .ok none
  else if remaining = maxHeaderSz then .error .panic
  else
    let headerLen := if remaining < maxHeaderSz then remaining else maxHeaderSz
    afterHeaderRead content offset (ioRead content headerLen offset)

/-! ### Data files and the BTree index -/

/-- `DataFile`: file id, byte content (its length is the `offset` field of
the source, which always equals the file size), and a ghost `synced`
watermark recording how many bytes have been fsync'd. -/
structure DataFileM where
  id : Nat
  content : List Nat
  synced : Nat
  deriving DecidableEq

def DataFileM.read (df : DataFileM) (offset : Nat) :
    Except RunErr (Option LogRecord) :=
  readAt df.content offset

/-- `DataFile::write`: append the bytes; the offset grows by their count. -/
def DataFileM.write (df : DataFileM) (buf : List Nat) : DataFileM :=
  { df with content := df.content ++ buf }

/-- `DataFile::sync`: everything written so far becomes durable. -/
def DataFileM.sync (df : DataFileM) : DataFileM :=
  { df with synced := df.content.length }

/-- Strict byte-lexicographic order on keys — the `Ord` instance of
`Vec<u8>` that `BTreeMap<Vec<u8>, _>` sorts by. -/
def keyLtb : List Nat → List Nat → Bool
  | [], [] => false
  | [], _ :: _ => true
  | _ :: _, [] => false
  | a :: as, b :: bs => if a < b then true else if b < a then false else keyLtb as bs

/-- The `BTreeMap` contents, represented as an association list sorted by
`keyLtb`.  `btreeInsert` is `BTree::put` (insert or overwrite). -/
def btreeInsert (idx : List (List Nat × LogRecordPos)) (k : List Nat)
    (p : LogRecordPos) : List (List Nat × LogRecordPos) :=
  match idx with
  | [] => [(k, p)]
  | (k', p') :: rest =>
    if keyLtb k k' then (k, p) :: (k', p') :: rest
    else if keyLtb k' k then (k', p') :: btreeInsert rest k p
    else (k, p) :: rest

/-- `BTree::get`: point lookup. -/
def btreeGet (idx : List (List Nat × LogRecordPos)) (k : List Nat) :
    Option LogRecordPos :=
  match idx with
  | [] => none
  | (k', p') :: rest => if k' = k then some p' else btreeGet rest k

/-- `BTree::delete`: remove the entry; the flag is `true` iff the key was
present (`BTreeMap::remove(..).is_some()`). -/
def btreeRemove (idx : List (List Nat × LogRecordPos)) (k : List Nat) :
    Bool × List (List Nat × LogRecordPos) :=
  match idx with
  | [] => (false, [])
  | (k', p') :: rest =>
    if k' = k then (true, rest)
    else
      let out := btreeRemove rest k
      (out.1, (k', p') :: out.2)

/-- `BTree::index` (src/index/btree.rs): scan one segment from offset 0,
folding each decoded record into the index: Normal ⇒ `put`, Deleted ⇒
`delete`; stop at EndOfFile; propagate read errors.  The loop advances by
`log_record.size()`; the fuel `content.length + 1` dominates the number of
iterations because every decoded record is at least 7 bytes long. -/
def rebuildFileAux (df : DataFileM) :
    Nat → Nat → List (List Nat × LogRecordPos) →
    Except RunErr (List (List Nat × LogRecordPos))
  | 0, _, _ => .error .panic
  | fuel + 1, offset, idx =>
    match df.read offset with
    | .error e => .error e
    | .ok none => .ok idx
    | .ok (some r) =>
      let pos : LogRecordPos := ⟨df.id, offset⟩
      let idx' :=
        match r.recordType with
        | .Normal => btreeInsert idx r.key pos
        | .Deleted => (btreeRemove idx r.key).2
      rebuildFileAux df fuel (offset + r.size) idx'

def rebuildFile (df : DataFileM) (idx : List (List Nat × LogRecordPos)) :
    Except RunErr (List (List Nat × LogRecordPos)) :=
  rebuildFileAux df (df.content.length + 1) 0 idx

/-- `BTree::index` over a sequence of data files, in the order handed to
it by the caller (in `Engine::new` that order is the iteration order of a
`HashMap`, which is arbitrary). -/
def rebuildIndex (dfs : List DataFileM) (idx : List (List Nat × LogRecordPos)) :
    Except RunErr (List (List Nat × LogRecordPos)) :=
  match dfs with
  | [] => .ok idx
  | df :: rest =>
    match rebuildFile df idx with
    | .error e => .error e
    | .ok idx' => rebuildIndex rest idx'

/-! ### The engine (src/engine.rs) -/

/-- `IndexType` from `src/options.rs`. -/
inductive IndexTypeM where
  | BTree
  | SkipList
  deriving DecidableEq

/-- `Options`: `dir_path` is abstracted to whether `to_str()` succeeds
(`dirPathValid`); `data_file_size` and `sync_writes` are kept as given. -/
structure OptionsM where
  dirPathValid : Bool
  dataFileSize : Nat
  syncWrites : Bool
  indexType : IndexTypeM
  deriving DecidableEq

/-- `check_options`. -/
def checkOptionsM (o : OptionsM) : Except Errors Unit :=
  if o.dirPathValid = false then .error .InvalidDbPath
  else if o.dataFileSize = 0 then .error .DatafileSizeTooSmall
  else .ok ()

/-- The engine state: options, the active data file, the idle file map
(`HashMap<u32, DataFile>` as an association list) and the BTree index. -/
structure EngineM where
  options : OptionsM
  activeFile : DataFileM
  idleFile : List (Nat × DataFileM)
  index : List (List Nat × LogRecordPos)
  deriving DecidableEq

/-- `HashMap::get` on the idle map. -/
def lookupIdle (m : List (Nat × DataFileM)) (id : Nat) : Option DataFileM :=
  match m with
  | [] => none
  | (k, v) :: rest => if k = id then some v else lookupIdle rest id

/-- `Engine::append_log_record`: encode the record; if it does not fit in
the active segment (`offset + len > data_file_size`), sync the active
segment, retire it into the idle map and start a fresh segment with
file id + 1; append the encoded record to the (possibly new) active
segment; sync again when `sync_writes` is set; return the location
(active id, offset after the write − len). -/
def EngineM.appendLogRecord (e : EngineM) (r : LogRecord) :
    EngineM × LogRecordPos :=
  let buf := r.encode
  let len := buf.length
  let e1 :=
    if e.activeFile.content.length + len > e.options.dataFileSize then
      { e with
        activeFile := ⟨e.activeFile.id + 1, [], 0⟩
        idleFile := (e.activeFile.id, e.activeFile.sync) :: e.idleFile }
    else e
  let e2 := { e1 with activeFile := e1.activeFile.write buf }
  let e3 :=
    if e2.options.syncWrites then { e2 with activeFile := e2.activeFile.sync }
    else e2
  (e3, ⟨e3.activeFile.id, e3.activeFile.content.length - len⟩)

/-- `Engine::put`: reject the empty key, append a Normal record, update
the index (the BTree `put` always reports success). -/
def EngineM.put (e : EngineM) (k v : List Nat) : Except RunErr EngineM :=
  if k = [] then .error (.fromErrors .EmptyKey)
  else
    let out := e.appendLogRecord ⟨k, v, .Normal⟩
    .ok { out.1 with index := btreeInsert out.1.index k out.2 }

/-- `Engine::delete`, with the final engine state returned alongside the
`Result` so that the error paths' "no mutation" behaviour is visible:
empty key ⇒ `EmptyKey`; key absent from the index ⇒ `KeyNotFound`, both
leaving the engine untouched; otherwise append a Deleted record with an
empty value and remove the index entry. -/
def EngineM.delete (e : EngineM) (k : List Nat) :
    Except RunErr Unit × EngineM :=
  if k = [] then (.error (.fromErrors .EmptyKey), e)
  else
    match btreeGet e.index k with
    | none => (.error (.fromErrors .KeyNotFound), e)
    | some _ =>
      let out := e.appendLogRecord ⟨k, [], .Deleted⟩
      let rem := btreeRemove out.1.index k
      if rem.1 then (.ok (), { out.1 with index := rem.2 })
      else (.error (.fromErrors .IndexUpdateFail), { out.1 with index := rem.2 })

/-- `Engine::at`: read the record at a location, from the active segment
when the id matches, else from the idle map (`DatafileNotFound` when the
segment is missing).  EndOfFile at an indexed location is
`InternalError`; a tombstone resolves to `KeyNotFound`. -/
def EngineM.atPos (e : EngineM) (pos : LogRecordPos) :
    Except RunErr (List Nat) :=
  let readRes :=
    if e.activeFile.id = pos.fileId then e.activeFile.read pos.offset
    else
      match lookupIdle e.idleFile pos.fileId with
      | none => .error (.fromErrors .DatafileNotFound)
      | some df => df.read pos.offset
  match readRes with
  | .error er => .error er
  | .ok none => .error (.fromErrors .InternalError)
  | .ok (some record) =>
    match record.recordType with
    | .Normal => .ok record.value
    | .Deleted => .error (.fromErrors .KeyNotFound)

/-- `Engine::get`: reject the empty key; index miss is `KeyNotFound`;
otherwise resolve through `at`. -/
def EngineM.get (e : EngineM) (k : List Nat) : Except RunErr (List Nat) :=
  if k = [] then .error (.fromErrors .EmptyKey)
  else
    match btreeGet e.index k with
    | none => .error (.fromErrors .KeyNotFound)
    | some pos => e.atPos pos

/-- The id of the largest datafile (`datafiles.keys().max()`). -/
def maxFileId (dfs : List DataFileM) : Option Nat :=
  match dfs with
  | [] => none
  | df :: rest =>
    match maxFileId rest with
    | none => some df.id
    | some m => some (if df.id ≥ m then df.id else m)

/-- `Engine::new`.  `dirExistsOnDisk` says whether `opts.dir_path` is an
existing directory; `dirFiles` are the `*.data` files found in it, in the
arbitrary order the `HashMap` of `load_datafiles` yields them.

The source guards directory creation with `if opts.dir_path.is_dir()`
(src/engine.rs:25), so the directory is created only when it already
exists (a no-op); when it is absent nothing is created and the
`fs::read_dir` inside `load_datafiles` fails with `ReadDbDirFail`. -/
def engineNew (opts : OptionsM) (dirExistsOnDisk : Bool)
    (dirFiles : List DataFileM) : Except RunErr EngineM :=
  match checkOptionsM opts with
  | .error e => .error (.fromErrors e)
  | .ok _ =>
    if dirExistsOnDisk = false then .error (.fromErrors .ReadDbDirFail)
    else
      let idxRes :=
        match opts.indexType with
        | .BTree => rebuildIndex dirFiles []
        | .SkipList => .error .panic
      match idxRes with
      | .error e => .error e
      | .ok idx =>
        match maxFileId dirFiles with
        | none => .ok ⟨opts, ⟨0, [], 0⟩, [], idx⟩
        | some fid =>
          match dirFiles.find? (fun df => df.id = fid) with
          | none => .error .panic
          | some active =>
            .ok ⟨opts, active,
              (dirFiles.filter (fun df => df.id ≠ fid)).map (fun df => (df.id, df)),
              idx⟩

/-- A freshly opened engine on an empty directory: active file id 0,
empty idle map, empty index. -/
def engineInit (s : Nat) (sw : Bool) : EngineM :=
  ⟨⟨true, s, sw, .BTree⟩, ⟨0, [], 0⟩, [], []⟩

/-- The `.data` files the engine's directory holds: the idle segments and
the active one. -/
def engineFiles (e : EngineM) : List DataFileM :=
  e.idleFile.map Prod.snd ++ [e.activeFile]

/-- Run a sequence of `put`s. -/
def runPuts (e : EngineM) : List (List Nat × List Nat) → Except RunErr EngineM
  | [] => .ok e
  | (k, v) :: rest =>
    match e.put k v with
    | .error er => .error er
    | .ok e' => runPuts e' rest

/-- Cumulative encoded size of a sequence of puts. -/
def totalEncodedSize (l : List (List Nat × List Nat)) : Nat :=
  (l.map (fun kv => (LogRecord.mk kv.1 kv.2 .Normal).size)).sum

/-! ### The BTree iterator (src/index/btree.rs, src/iterator.rs) -/

/-- `IteratorOptions`: `reverse` and the key `filter` predicate. -/
structure IterOptionsM where
  reverse : Bool
  filter : List Nat → Bool

/-- `BtreeIterator`: the snapshot of the map's items (reversed when
`reverse` is set), a cursor, and the options. -/
structure BtreeIteratorM where
  items : List (List Nat × LogRecordPos)
  index : Nat
  options : IterOptionsM

/-- `BTree::iterator`: snapshot the (sorted) items, reversing them when
`options.reverse` is set; cursor at 0. -/
def btreeIterator (tree : List (List Nat × LogRecordPos)) (o : IterOptionsM) :
    BtreeIteratorM :=
  ⟨if o.reverse then tree.reverse else tree, 0, o⟩

/-- The `while let Some(item) = self.items.get(self.index)` loop of
`BtreeIterator::next`: starting at cursor `i`, return the first item
passing the filter together with the cursor just past it.  Structural
fuel; `items.length - i` suffices. -/
def scanFromAux (items : List (List Nat × LogRecordPos))
    (f : List Nat → Bool) : Nat → Nat → Option ((List Nat × LogRecordPos) × Nat)
  | 0, _ => none
  | fuel + 1, i =>
    match items[i]? with
    | none => none
    | some item => if f item.1 then some (item, i + 1) else scanFromAux items f fuel (i + 1)

/-- `BtreeIterator::next`. -/
def iterNextM (it : BtreeIteratorM) :
    Option ((List Nat × LogRecordPos) × BtreeIteratorM) :=
  if it.items.length ≤ it.index then none
  else
    match scanFromAux it.items it.options.filter (it.items.length - it.index) it.index with
    | none => none
    | some (item, i') => some (item, { it with index := i' })

/-- Exhaust the iterator, collecting every yielded (key, location) pair
from repeated `next` calls.  Fuel-based; each yield advances the cursor,
so `items.length + 1` steps suffice. -/
def iterCollectAux :
    Nat → Option ((List Nat × LogRecordPos) × BtreeIteratorM) →
    List (List Nat × LogRecordPos)
  | 0, _ => []
  | _ + 1, none => []
  | fuel + 1, some (item, it') => item :: iterCollectAux fuel (iterNextM it')

def iterCollect (it : BtreeIteratorM) : List (List Nat × LogRecordPos) :=
  iterCollectAux (it.items.length + 1) (iterNextM it)

/-! ### Concrete instances used by the claim theorems -/

/-- A 4-byte key whose record with a 4-byte value encodes to exactly 15
bytes, the speculative-header boundary of `DataFile::read`. -/
def c1Key : List Nat := [97, 98, 99, 100]

def c1Value : List Nat := [101, 102, 103, 104]

/-- The engine obtained by `put(c1Key, c1Value)` on a freshly opened
engine with the default 8 MiB segment size. -/
def c1Engine : EngineM :=
  match (engineInit 8388608 false).put c1Key c1Value with
  | .ok e => e
  | .error _ => engineInit 0 false

/-- Segment 0 holding one Normal record for key `[107]` with value `[49]`. -/
def c2FileA : DataFileM := ⟨0, (LogRecord.mk [107] [49] .Normal).encode, 0⟩

/-- Segment 1 holding a later Normal record for the same key `[107]`,
value `[50]`. -/
def c2FileB : DataFileM := ⟨1, (LogRecord.mk [107] [50] .Normal).encode, 0⟩

/-- The record of the repository's own `simple_record_encoding` test:
key "ailurus-kv", value "is Awesome". -/
def c4Record : LogRecord :=
  ⟨[97, 105, 108, 117, 114, 117, 115, 45, 107, 118],
   [105, 115, 32, 65, 119, 101, 115, 111, 109, 101], .Normal⟩

/-- A small record used as a concrete witness input. -/
def c4SmallRecord : LogRecord := ⟨[107], [49], .Normal⟩

/-- An engine holding one key `[107]`, for exercising `delete`. -/
def c5Engine : EngineM :=
  match (engineInit 100 false).put [107] [118] with
  | .ok e => e
  | .error _ => engineInit 0 false

/-- A record used to exercise segment rotation (`encode` length 9). -/
def c3Record : LogRecord := ⟨[97], [98], .Normal⟩

/-- Two puts whose records each encode to 20 bytes, driven into an engine
with `data_file_size = 10`. -/
def c6Puts : List (List Nat × List Nat) :=
  [([97, 98, 99, 100, 101, 102], [103, 104, 105, 106, 107, 108, 109]),
   ([110, 111, 112, 113, 114, 115], [116, 117, 118, 119, 120, 121, 122])]

def c6Engine : EngineM :=
  match runPuts (engineInit 10 false) c6Puts with
  | .ok e => e
  | .error _ => engineInit 0 false

/-- A well-formed empty-key, empty-value record image followed by a
second, complete record: 16 bytes in total. -/
def c8FileA : List Nat :=
  (LogRecord.mk [] [] .Normal).encode ++ (LogRecord.mk [107] [118] .Normal).encode

/-- Sorted index contents for the iterator theorems. -/
def c9Tree : List (List Nat × LogRecordPos) :=
  [([1], ⟨0, 0⟩), ([2], ⟨0, 1⟩), ([3], ⟨0, 2⟩)]

/-- A filter rejecting exactly the key `[2]`. -/
def c9Filter : List Nat → Bool := fun k => decide (k ≠ [2])

/-! ### Varint lemmas -/

theorem encodeVarintFuel_congr :
    ∀ f1 f2 n, n < f1 → n < f2 → encodeVarintFuel f1 n = encodeVarintFuel f2 n := by
  intro f1
  induction f1 with
  | zero => intro f2 n h; omega
  | succ g1 ih =>
    intro f2 n h1 h2
    match f2, h2 with
    | g2 + 1, _ =>
      simp only [encodeVarintFuel]
      by_cases hn : n < 128
      · simp [hn]
      · simp only [hn, if_false]
        have hd : n / 128 < n := Nat.div_lt_self (by omega) (by omega)
        rw [ih g2 (n / 128) (by omega) (by omega)]

theorem encodeVarint_eq (n : Nat) :
    encodeVarint n =
      if n < 128 then [n] else (n % 128 + 128) :: encodeVarint (n / 128) := by
  show encodeVarintFuel (n + 1) n = _
  simp only [encodeVarintFuel]
  by_cases hn : n < 128
  · simp [hn]
  · simp only [hn, if_false]
    have hd : n / 128 < n := Nat.div_lt_self (by omega) (by omega)
    rw [encodeVarintFuel_congr n (n / 128 + 1) (n / 128) (by omega) (by omega)]
    rfl

theorem encodeVarint_length_le :
    ∀ k n, n < 128 ^ (k + 1) → (encodeVarint n).length ≤ k + 1 := by
  intro k
  induction k with
  | zero =>
    intro n h
    rw [encodeVarint_eq, if_pos (by simpa using h)]
    simp
  | succ j ih =>
    intro n h
    rw [encodeVarint_eq]
    by_cases hn : n < 128
    · simp [hn]
    · simp only [hn, if_false, List.length_cons]
      have : n / 128 < 128 ^ (j + 1) := by
        rw [Nat.div_lt_iff_lt_mul (by omega)]
        calc n < 128 ^ (j + 1 + 1) := h
        _ = 128 ^ (j + 1) * 128 := by ring
      exact Nat.succ_le_succ (ih (n / 128) this)

theorem decodeVarintAux_encode :
    ∀ fuel n shift acc (rest : List Nat),
      (encodeVarint n).length ≤ fuel → acc + n * 2 ^ shift < 2 ^ 64 →
      decodeVarintAux fuel shift acc (encodeVarint n ++ rest) =
        .ok (acc + n * 2 ^ shift, rest) := by
  intro fuel
  induction fuel with
  | zero =>
    intro n shift acc rest hlen _
    rw [encodeVarint_eq] at hlen
    by_cases hn : n < 128 <;> simp [hn] at hlen
  | succ g ih =>
    intro n shift acc rest hlen hbound
    by_cases hn : n < 128
    · rw [encodeVarint_eq, if_pos hn]
      simp only [List.cons_append, List.nil_append, decodeVarintAux]
      rw [Nat.mod_eq_of_lt (by omega)]
      simp only [hn, if_true, hbound, if_pos, List.append_eq, List.nil_append]
    · rw [encodeVarint_eq, if_neg hn] at hlen ⊢
      simp only [List.cons_append, decodeVarintAux]
      have hb : (n % 128 + 128) % 256 = n % 128 + 128 := Nat.mod_eq_of_lt (by omega)
      rw [hb]
      have hlt : ¬(n % 128 + 128 < 128) := by omega
      simp only [hlt, if_false]
      have harith : acc + (n % 128 + 128 - 128) * 2 ^ shift + n / 128 * 2 ^ (shift + 7) =
          acc + n * 2 ^ shift := by
        have : n = 128 * (n / 128) + n % 128 := (Nat.div_add_mod n 128).symm
        calc acc + (n % 128 + 128 - 128) * 2 ^ shift + n / 128 * 2 ^ (shift + 7)
            = acc + (n % 128) * 2 ^ shift + n / 128 * (2 ^ shift * 128) := by
              rw [Nat.add_sub_cancel, pow_add]; norm_num
        _ = acc + (128 * (n / 128) + n % 128) * 2 ^ shift := by ring
        _ = acc + n * 2 ^ shift := by rw [← this]
      simp only [List.append_eq]
      rw [ih (n / 128) (shift + 7) (acc + (n % 128 + 128 - 128) * 2 ^ shift) rest
        (by simpa using hlen) (by rw [harith]; exact hbound)]
      rw [harith]

theorem decodeVarint_encode (n : Nat) (rest : List Nat) (h : n < 2 ^ 64) :
    decodeVarint (encodeVarint n ++ rest) = .ok (n, rest) := by
  have hlen : (encodeVarint n).length ≤ 10 := by
    have := encodeVarint_length_le 9 n (by norm_num at *; omega)
    omega
  have := decodeVarintAux_encode 10 n 0 0 rest hlen (by simpa using h)
  simpa using this

theorem lengthDelimiterLen_pos (n : Nat) : 1 ≤ lengthDelimiterLen n := by
  unfold lengthDelimiterLen
  rw [encodeVarint_eq]
  by_cases hn : n < 128 <;> simp [hn]

theorem lengthDelimiterLen_le_five (n : Nat) (h : n < 2 ^ 35) :
    lengthDelimiterLen n ≤ 5 := by
  have : n < 128 ^ (4 + 1) := by norm_num at *; omega
  exact encodeVarint_length_le 4 n this

theorem maxHeaderSz_eq : maxHeaderSz = 15 := by decide

/-! ### Parsing a single well-formed record image -/

theorem take_append_all {α : Type} (l1 l2 : List α) (n : Nat) (h : l1.length ≤ n) :
    (l1 ++ l2).take n = l1 ++ l2.take (n - l1.length) := by
  rw [List.take_append_eq_append_take, List.take_of_length_le h]

theorem tryFrom_toByte (ty : LogRecordType) :
    LogRecordType.tryFrom ty.toByte = .ok ty := by
  cases ty <;> rfl

theorem toByte_lt (ty : LogRecordType) : ty.toByte < 256 := by
  cases ty <;> decide

/-- First stage of `DataFile::read` at an in-bounds offset whose
`remaining` is neither 0 nor the `unreachable!()` boundary 15: the
speculative header (up to `max_header_sz` bytes) is read and parsing
continues on it. -/
theorem readAt_to_header (content : List Nat) (offset : Nat)
    (h64 : content.length < 2 ^ 64)
    (hle : offset ≤ content.length)
    (hne0 : content.length - offset ≠ 0)
    (hne15 : content.length - offset ≠ 15) :
    readAt content offset =
      parseHeader content offset
        ((content.drop offset).take
          (if content.length - offset < 15 then content.length - offset else 15)) := by
  have h0 : (content.length + 2 ^ 64 - offset) % 2 ^ 64 = content.length - offset := by
    omega
  rw [readAt]
  simp only [h0, maxHeaderSz_eq]
  rw [if_neg hne0, if_neg hne15]
  have hio : ioRead content
      (if content.length - offset < 15 then content.length - offset else 15) offset =
      .ok ((content.drop offset).take
        (if content.length - offset < 15 then content.length - offset else 15)) := by
    rw [ioRead, if_pos (by split <;> omega)]
  rw [hio]
  rfl

/-- Reading offset 0 of a file that is the image of one record:
4 CRC bytes `c` (big-endian), a type byte `t`, the two size varints and a
payload of exactly `KeySize + ValueSize` bytes.  Provided the sizes are
not both zero, their varints fit inside the speculative header window
(`< 2 ^ 35`), and the file does not hit the `remaining == max_header_sz`
panic (`≠ 15`), the read faithfully reproduces `DataFile::read`:
the key/value bytes are the payload split at `KeySize`, the type byte
goes through `LogRecordType::try_from`, and the stored CRC is compared
with the decoded record's CRC (`buildRecord`). -/
theorem readAt_record_bytes
    (c t ks vs : Nat) (payload : List Nat)
    (hc : c < 2 ^ 32)
    (hks : ks < 2 ^ 35) (hvs : vs < 2 ^ 35)
    (hpl : payload.length = ks + vs)
    (hnz : ¬(ks = 0 ∧ vs = 0))
    (hlen : 5 + lengthDelimiterLen ks + lengthDelimiterLen vs + ks + vs ≠ 15) :
    readAt (u32BytesBE c ++ t :: (encodeVarint ks ++ (encodeVarint vs ++ payload))) 0 =
      buildRecord c ks payload (LogRecordType.tryFrom t) := by
  have ha1 : 1 ≤ lengthDelimiterLen ks := lengthDelimiterLen_pos ks
  have hb1 : 1 ≤ lengthDelimiterLen vs := lengthDelimiterLen_pos vs
  have ha5 : lengthDelimiterLen ks ≤ 5 := lengthDelimiterLen_le_five ks hks
  have hb5 : lengthDelimiterLen vs ≤ 5 := lengthDelimiterLen_le_five vs hvs
  have hks64 : ks < 2 ^ 64 := by norm_num at hks ⊢; omega
  have hvs64 : vs < 2 ^ 64 := by norm_num at hvs ⊢; omega
  have hF : (u32BytesBE c ++ t :: (encodeVarint ks ++ (encodeVarint vs ++ payload))).length =
      5 + lengthDelimiterLen ks + lengthDelimiterLen vs + (ks + vs) := by
    simp [u32BytesBE, lengthDelimiterLen, hpl]
    omega
  rw [readAt_to_header _ 0 (by rw [hF]; norm_num at hks hvs ⊢; omega) (by omega)
    (by rw [Nat.sub_zero, hF]; omega) (by rw [Nat.sub_zero, hF]; omega)]
  rw [List.drop_zero, Nat.sub_zero, hF]
  set w := if 5 + lengthDelimiterLen ks + lengthDelimiterLen vs + (ks + vs) < 15
    then 5 + lengthDelimiterLen ks + lengthDelimiterLen vs + (ks + vs) else 15 with hwdef
  have hw5 : 5 + lengthDelimiterLen ks + lengthDelimiterLen vs ≤ w := by
    rw [hwdef]; split <;> omega
  have htake : (u32BytesBE c ++ t :: (encodeVarint ks ++ (encodeVarint vs ++ payload))).take w =
      c / 2 ^ 24 % 256 :: c / 2 ^ 16 % 256 :: c / 2 ^ 8 % 256 :: c % 256 :: t ::
        (encodeVarint ks ++ (encodeVarint vs ++
          payload.take (w - 5 - lengthDelimiterLen ks - lengthDelimiterLen vs))) := by
    rw [show u32BytesBE c ++ t :: (encodeVarint ks ++ (encodeVarint vs ++ payload)) =
        (u32BytesBE c ++ [t]) ++ (encodeVarint ks ++ (encodeVarint vs ++ payload)) by simp]
    have hlk : (encodeVarint ks).length = lengthDelimiterLen ks := rfl
    have hlv : (encodeVarint vs).length = lengthDelimiterLen vs := rfl
    rw [take_append_all _ _ w (by simp [u32BytesBE]; omega)]
    rw [take_append_all _ _ _ (by simp [u32BytesBE, hlk]; omega)]
    rw [take_append_all _ _ _ (by simp [u32BytesBE, hlk, hlv]; omega)]
    simp only [u32BytesBE, List.cons_append, List.nil_append, List.length_append,
      List.length_cons, List.length_nil]
    have e1 : w - (4 + 1) - (encodeVarint ks).length = w - 5 - lengthDelimiterLen ks := by
      simp [lengthDelimiterLen]
    have e2 : w - (4 + 1) - (encodeVarint ks).length - (encodeVarint vs).length =
        w - 5 - lengthDelimiterLen ks - lengthDelimiterLen vs := by
      simp [lengthDelimiterLen]
    rw [e2]
  rw [htake]
  rw [parseHeader]
  rw [decodeVarint_encode ks _ hks64]
  rw [afterKeySize]
  rw [decodeVarint_encode vs _ hvs64]
  rw [afterValueSize]
  rw [finishRead, if_neg hnz]
  have hiokv : ioRead (u32BytesBE c ++ t :: (encodeVarint ks ++ (encodeVarint vs ++ payload)))
      (ks + vs) (0 + (4 + 1 + lengthDelimiterLen ks + lengthDelimiterLen vs)) =
      .ok payload := by
    rw [ioRead, if_pos (by rw [hF]; omega)]
    have hdrop : (u32BytesBE c ++ t :: (encodeVarint ks ++ (encodeVarint vs ++ payload))).drop
        (0 + (4 + 1 + lengthDelimiterLen ks + lengthDelimiterLen vs)) = payload := by
      rw [show u32BytesBE c ++ t :: (encodeVarint ks ++ (encodeVarint vs ++ payload)) =
          ((u32BytesBE c ++ [t]) ++ (encodeVarint ks ++ encodeVarint vs)) ++ payload by simp]
      rw [show 0 + (4 + 1 + lengthDelimiterLen ks + lengthDelimiterLen vs) =
          ((u32BytesBE c ++ [t]) ++ (encodeVarint ks ++ encodeVarint vs)).length by
        simp [u32BytesBE, lengthDelimiterLen]; omega]
      exact List.drop_left _ _
    rw [hdrop, ← hpl, List.take_length]
  rw [hiokv]
  rw [afterKvRead]
  rw [show getU32BE (c / 2 ^ 24 % 256) (c / 2 ^ 16 % 256) (c / 2 ^ 8 % 256) (c % 256) = c from by
    rw [getU32BE]; omega]

/-! ### Claim C10: totality of `DataFile::read` in the offset -/

/-- C10 counterexample: the claim says `read` returns EndOfFile *exactly*
when the remaining byte count `size - offset` is zero, but a file of
seven zero bytes read at offset 0 (remaining 7 ≠ 0) also returns
EndOfFile, through the KeySize = ValueSize = 0 path. -/
theorem c10_eof_with_nonzero_remaining :
    readAt [0, 0, 0, 0, 0, 0, 0] 0 = .ok none ∧
    ([0, 0, 0, 0, 0, 0, 0] : List Nat).length - 0 ≠ 0 :=
  ⟨rfl, by decide⟩

/-- C10 (amended): `DataFile::read` returns EndOfFile when the remaining
byte count is zero (`offset = size`); and for every offset strictly
greater than the file size the wrapped `u64` subtraction makes the call
fail — it never returns EndOfFile or a record (the error is the
`unreachable!()` panic when the wrapped count is exactly 15, and the
failed exact read otherwise). -/
theorem c10_read_totality_amended :
    (∀ (content : List Nat) (offset : Nat), offset = content.length →
      content.length < 2 ^ 64 → readAt content offset = .ok none) ∧
    (∀ (content : List Nat) (offset : Nat), content.length < offset →
      offset < 2 ^ 64 → ∃ er : RunErr, readAt content offset = .error er) := by
  constructor
  · intro content offset ho h64
    subst ho
    rw [readAt]
    have h0 : (content.length + 2 ^ 64 - content.length) % 2 ^ 64 = 0 := by omega
    simp only [h0, if_true]
  · intro content offset hlt h64
    have hr0 : (content.length + 2 ^ 64 - offset) % 2 ^ 64 ≠ 0 := by omega
    by_cases h15 : (content.length + 2 ^ 64 - offset) % 2 ^ 64 = 15
    · refine ⟨.panic, ?_⟩
      rw [readAt]
      simp only [maxHeaderSz_eq]
      rw [if_neg hr0, if_pos h15]
    · refine ⟨.fromErrors .FailToReadFromFile, ?_⟩
      rw [readAt]
      simp only [maxHeaderSz_eq]
      rw [if_neg hr0, if_neg h15]
      have hio : ioRead content
          (if (content.length + 2 ^ 64 - offset) % 2 ^ 64 < 15
           then (content.length + 2 ^ 64 - offset) % 2 ^ 64 else 15) offset =
          .error (.fromErrors .FailToReadFromFile) := by
        rw [ioRead, if_neg (by split <;> omega)]
      rw [hio]
      rfl

/-- C10 witness: the amended theorem applied at concrete inputs: reading
the empty file at offset 0 is EndOfFile, and reading it at offset 1
fails. -/
theorem c10_read_totality_witness :
    readAt [] 0 = .ok none ∧ ∃ er : RunErr, readAt [] 1 = .error er :=
  ⟨c10_read_totality_amended.1 [] 0 rfl (by norm_num),
   c10_read_totality_amended.2 [] 1 (by norm_num) (by norm_num)⟩

/-! ### Claim C4: the CRC field -/

/-- C4 counterexample: `encode` stores the CRC big-endian, not
little-endian as the claim states.  On the repository's own
`simple_record_encoding` test record the first four encoded bytes are
`[0x04, 0xcd, 0x63, 0xdd]` (the big-endian image of CRC `0x04cd63dd`),
which differs from the little-endian image. -/
theorem c4_crc_not_little_endian :
    c4Record.encode.take 4 = [0x04, 0xcd, 0x63, 0xdd] ∧
    c4Record.encode.take 4 ≠ u32BytesLE c4Record.crc := by
  constructor
  · decide
  · decide

/-- C4 (amended): for every `LogRecord`, `encode` stores in the first 4
bytes the *big-endian* CRC-32 (IEEE) of {Type ‖ KeySize ‖ ValueSize ‖
Key ‖ Value}; and `DataFile::read` recomputes this CRC and fails with
`DatafileCorrupted` whenever the stored CRC disagrees (for any record
image whose sizes fit the speculative header and which does not land on
the `remaining == max_header_sz` panic boundary). -/
theorem c4_crc_big_endian_checked :
    (∀ r : LogRecord, r.encode.take 4 = u32BytesBE r.crc) ∧
    (∀ (r : LogRecord) (c : Nat), c < 2 ^ 32 → r.key ≠ [] →
      r.key.length < 2 ^ 35 → r.value.length < 2 ^ 35 → r.size ≠ 15 → c ≠ r.crc →
      readAt (u32BytesBE c ++ r.compress) 0 = .error (.fromErrors .DatafileCorrupted)) := by
  constructor
  · intro r
    rw [LogRecord.encode]
    have h4 : (4 : Nat) = (u32BytesBE r.crc).length := rfl
    rw [h4]
    exact List.take_left _ _
  · intro r c hc hkey hk hv hsz hcrc
    obtain ⟨key, value, rt⟩ := r
    simp only [LogRecord.key] at hkey hk
    simp only [LogRecord.value] at hv
    have hlk : (encodeVarint key.length).length = lengthDelimiterLen key.length := rfl
    have hlv : (encodeVarint value.length).length = lengthDelimiterLen value.length := rfl
    have hszeq : (LogRecord.mk key value rt).size =
        5 + lengthDelimiterLen key.length + lengthDelimiterLen value.length +
          (key.length + value.length) := by
      simp [LogRecord.size, LogRecord.encode, LogRecord.compress, u32BytesBE, hlk, hlv]
      omega
    have hcomp : (LogRecord.mk key value rt).compress =
        rt.toByte :: (encodeVarint key.length ++
          (encodeVarint value.length ++ (key ++ value))) := by
      simp [LogRecord.compress]
    rw [hcomp]
    rw [readAt_record_bytes c rt.toByte key.length value.length (key ++ value) hc hk hv
      (by simp)
      (by
        intro hzz
        exact hkey (List.length_eq_zero.mp hzz.1))
      (by omega)]
    rw [tryFrom_toByte]
    simp only [buildRecord]
    rw [List.take_left, List.drop_left]
    rw [if_neg hcrc]

/-- C4 witness: the amended theorem at a concrete record and a concrete
wrong CRC value 0. -/
theorem c4_crc_big_endian_checked_witness :
    c4SmallRecord.encode.take 4 = u32BytesBE c4SmallRecord.crc ∧
    readAt (u32BytesBE 0 ++ c4SmallRecord.compress) 0 =
      .error (.fromErrors .DatafileCorrupted) :=
  ⟨c4_crc_big_endian_checked.1 c4SmallRecord,
   c4_crc_big_endian_checked.2 c4SmallRecord 0 (by norm_num) (by decide) (by decide)
     (by decide) (by decide) (by decide)⟩

/-! ### Claim C8: codec edge policies -/

/-- `decode_length_delimiter` on a leading zero byte yields 0 and leaves
the rest untouched. -/
theorem decodeVarint_zero (l : List Nat) : decodeVarint (0 :: l) = .ok (0, l) := rfl

/-- C8 counterexample: (i) the image of a well-formed empty-key,
empty-value record followed by a second complete record (16 bytes in
total, so data clearly follows position 0) is still read as EndOfFile at
offset 0 — the source returns EndOfFile whenever both sizes decode to 0,
without checking that no data follows; (ii) an unknown Type byte 99 with
both sizes 0 also yields EndOfFile rather than the corruption error
`LogRecordType::try_from` would raise. -/
theorem c8_eof_mistaken_and_unknown_type :
    readAt c8FileA 0 = .ok none ∧
    c8FileA.length = 16 ∧
    readAt [0, 0, 0, 0, 99, 0, 0] 0 = .ok none ∧
    LogRecordType.tryFrom 99 = .error .DatafileCorrupted :=
  ⟨rfl, by decide, rfl, rfl⟩

/-- C8 (amended): for a record image read at offset 0 that does not land
on the `remaining == max_header_sz` panic boundary: an unknown Type byte
(neither 1 nor 2) with sizes not both zero yields `DatafileCorrupted`;
and a position where KeySize and ValueSize both decode as 0 is treated as
EndOfFile *regardless of whether data follows* that position. -/
theorem c8_edge_policies_amended :
    (∀ (c t ks vs : Nat) (payload : List Nat),
      c < 2 ^ 32 → t ≠ 1 → t ≠ 2 →
      ks < 2 ^ 35 → vs < 2 ^ 35 → payload.length = ks + vs → ¬(ks = 0 ∧ vs = 0) →
      5 + lengthDelimiterLen ks + lengthDelimiterLen vs + ks + vs ≠ 15 →
      readAt (u32BytesBE c ++ t :: (encodeVarint ks ++ (encodeVarint vs ++ payload))) 0 =
        .error (.fromErrors .DatafileCorrupted)) ∧
    (∀ (c t : Nat) (rest : List Nat), c < 2 ^ 32 → rest.length ≠ 8 →
      rest.length + 7 < 2 ^ 64 →
      readAt (u32BytesBE c ++ t :: 0 :: 0 :: rest) 0 = .ok none) := by
  constructor
  · intro c t ks vs payload hc ht1 ht2 hks hvs hpl hnz hlen
    rw [readAt_record_bytes c t ks vs payload hc hks hvs hpl hnz hlen]
    rw [show LogRecordType.tryFrom t = .error .DatafileCorrupted from by
      rw [LogRecordType.tryFrom, if_neg ht1, if_neg ht2]]
    rfl
  · intro c t rest hc hr8 h64
    have hF : (u32BytesBE c ++ t :: 0 :: 0 :: rest).length = 7 + rest.length := by
      simp [u32BytesBE]
      omega
    rw [readAt_to_header _ 0 (by omega) (by omega) (by omega) (by omega)]
    rw [List.drop_zero, Nat.sub_zero, hF]
    have htake : (u32BytesBE c ++ t :: 0 :: 0 :: rest).take
        (if 7 + rest.length < 15 then 7 + rest.length else 15) =
        c / 2 ^ 24 % 256 :: c / 2 ^ 16 % 256 :: c / 2 ^ 8 % 256 :: c % 256 :: t :: 0 :: 0 ::
          rest.take ((if 7 + rest.length < 15 then 7 + rest.length else 15) - 7) := by
      rw [show u32BytesBE c ++ t :: 0 :: 0 :: rest =
          (u32BytesBE c ++ [t, 0, 0]) ++ rest by simp]
      rw [take_append_all _ _ _ (by simp [u32BytesBE]; split <;> omega)]
      simp [u32BytesBE]
    rw [htake]
    rw [parseHeader]
    rw [decodeVarint_zero]
    rw [afterKeySize]
    rw [decodeVarint_zero]
    rw [afterValueSize]
    rw [finishRead, if_pos ⟨rfl, rfl⟩]

/-- C8 witness: the amended theorem at concrete inputs — an image with
unknown type byte 99 and a 1-byte key is rejected as corrupted; an image
with both size bytes 0 followed by three bytes of data reads as
EndOfFile. -/
theorem c8_edge_policies_witness :
    readAt (u32BytesBE 0 ++ 99 :: (encodeVarint 1 ++ (encodeVarint 0 ++ [55]))) 0 =
      .error (.fromErrors .DatafileCorrupted) ∧
    readAt (u32BytesBE 0 ++ 7 :: 0 :: 0 :: [1, 2, 3]) 0 = .ok none :=
  ⟨c8_edge_policies_amended.1 0 99 1 0 [55] (by norm_num) (by decide) (by decide)
     (by norm_num) (by norm_num) (by decide) (by decide) (by decide),
   c8_edge_policies_amended.2 0 7 [1, 2, 3] (by norm_num) (by decide) (by norm_num)⟩

/-! ### Claim C1: put/get round trip -/

/-- C1 failing input: the record for key "abcd" / value "efgh" encodes to
exactly 15 bytes; `put` succeeds, but the immediate `get` reads the
record at the end of the active segment with `remaining == max_header_sz
== 15`, which falls into the `unreachable!()` arm of `DataFile::read` —
a panic instead of the claimed byte-for-byte round trip. -/
theorem c1_roundtrip_panics_on_length15 :
    (LogRecord.mk c1Key c1Value .Normal).size = 15 ∧
    (engineInit 8388608 false).put c1Key c1Value = .ok c1Engine ∧
    c1Engine.get c1Key = .error .panic :=
  ⟨by decide, rfl, rfl⟩

/-! ### Claim C2: index rebuild scan order -/

/-- C2: `Engine::new` hands `BTree::index` the data files in the
iteration order of a `HashMap` (`datafiles.values()`), which is
arbitrary, not ascending file-id order.  Scanning segment 1 before
segment 0 leaves the index pointing at the *older* record `(0, 0)` for
key `[107]`, although that key's most recent Normal record is the one in
segment 1; scanning in ascending order yields `(1, 0)`. -/
theorem c2_rebuild_depends_on_scan_order :
    rebuildIndex [c2FileB, c2FileA] [] = .ok [([107], ⟨0, 0⟩)] ∧
    rebuildIndex [c2FileA, c2FileB] [] = .ok [([107], ⟨1, 0⟩)] :=
  ⟨rfl, rfl⟩

/-! ### Claim C7: open on a missing directory -/

/-- C7: with valid options and a `dir_path` that does not exist on disk,
`Engine::new` fails with `ReadDbDirFail` instead of creating the
directory: the guard `if opts.dir_path.is_dir()` (src/engine.rs:25) only
runs `create_dir_all` when the directory *already exists*, so the
subsequent `fs::read_dir` fails. -/
theorem c7_open_missing_dir_fails :
    engineNew ⟨true, 8388608, false, .BTree⟩ false [] =
      .error (.fromErrors .ReadDbDirFail) :=
  rfl

/-! ### Claim C3: append_log_record -/

/-- C3: `Engine::append_log_record` — when the encoded record does not
fit (`offset + len > data_file_size`) the active segment is sync'd and
retired into the idle map and a fresh segment with file id + 1 becomes
active; the record is then appended whole to the (possibly new) active
segment; when `sync_writes` is set the segment is sync'd after the
append; the returned location is (active id, offset after the write
minus the encoded length). -/
theorem c3_append_log_record (e : EngineM) (r : LogRecord) :
    (e.options.dataFileSize < e.activeFile.content.length + r.encode.length →
      (e.appendLogRecord r).1.activeFile.id = e.activeFile.id + 1 ∧
      (e.appendLogRecord r).1.idleFile =
        (e.activeFile.id, e.activeFile.sync) :: e.idleFile ∧
      (e.appendLogRecord r).1.activeFile.content = r.encode) ∧
    (e.activeFile.content.length + r.encode.length ≤ e.options.dataFileSize →
      (e.appendLogRecord r).1.activeFile.id = e.activeFile.id ∧
      (e.appendLogRecord r).1.idleFile = e.idleFile ∧
      (e.appendLogRecord r).1.activeFile.content = e.activeFile.content ++ r.encode) ∧
    (e.options.syncWrites = true →
      (e.appendLogRecord r).1.activeFile.synced =
        (e.appendLogRecord r).1.activeFile.content.length) ∧
    (e.appendLogRecord r).1.options = e.options ∧
    (e.appendLogRecord r).2.fileId = (e.appendLogRecord r).1.activeFile.id ∧
    (e.appendLogRecord r).2.offset =
      (e.appendLogRecord r).1.activeFile.content.length - r.encode.length := by
  by_cases h1 : e.options.dataFileSize < e.activeFile.content.length + r.encode.length <;>
    by_cases h2 : e.options.syncWrites = true <;>
    refine ⟨?_, ?_, ?_, ?_, ?_, ?_⟩ <;>
    simp [EngineM.appendLogRecord, DataFileM.write, DataFileM.sync, h1, h2]

/-- C3 witness: on a fresh engine with `data_file_size = 5` and
`sync_writes = true`, appending a 9-byte record rotates to segment 1 and
writes the whole record there. -/
theorem c3_append_log_record_witness :
    (engineInit 5 true).options.dataFileSize <
      (engineInit 5 true).activeFile.content.length + c3Record.encode.length ∧
    ((engineInit 5 true).appendLogRecord c3Record).1.activeFile.id =
      (engineInit 5 true).activeFile.id + 1 ∧
    ((engineInit 5 true).appendLogRecord c3Record).1.activeFile.content =
      c3Record.encode := by
  have h := c3_append_log_record (engineInit 5 true) c3Record
  have hcond : (engineInit 5 true).options.dataFileSize <
      (engineInit 5 true).activeFile.content.length + c3Record.encode.length := by decide
  exact ⟨hcond, (h.1 hcond).1, (h.1 hcond).2.2⟩

/-! ### Claim C5: delete -/

/-- `append_log_record` never touches the index. -/
theorem appendLogRecord_index (e : EngineM) (r : LogRecord) :
    (e.appendLogRecord r).1.index = e.index := by
  simp only [EngineM.appendLogRecord]
  split_ifs <;> rfl

/-- A key found by `BTree::get` is removed by `BTree::delete` with a
`true` result. -/
theorem btreeGet_some_remove (idx : List (List Nat × LogRecordPos)) (k : List Nat)
    (pos : LogRecordPos) (h : btreeGet idx k = some pos) :
    (btreeRemove idx k).1 = true := by
  induction idx with
  | nil => simp [btreeGet] at h
  | cons hd tl ih =>
    rw [btreeGet] at h
    rw [btreeRemove]
    by_cases he : hd.1 = k
    · simp [he]
    · simp only [he, if_false] at h ⊢
      exact ih h

/-- C5: `Engine::delete` on a non-empty key — if the key is absent from
the index the result is `KeyNotFound` and the engine is unchanged
(nothing appended); if the key is present, a Deleted record with empty
value is appended through `append_log_record` and the key's index entry
is removed. -/
theorem c5_delete (e : EngineM) (k : List Nat) (hk : ¬k = []) :
    (btreeGet e.index k = none →
      e.delete k = (.error (.fromErrors .KeyNotFound), e)) ∧
    (∀ pos, btreeGet e.index k = some pos →
      e.delete k =
        (.ok (),
         { (e.appendLogRecord ⟨k, [], .Deleted⟩).1 with
             index := (btreeRemove (e.appendLogRecord ⟨k, [], .Deleted⟩).1.index k).2 })) := by
  constructor
  · intro hnone
    simp [EngineM.delete, hk, hnone]
  · intro pos hsome
    have hrem : (btreeRemove (e.appendLogRecord ⟨k, [], .Deleted⟩).1.index k).1 = true := by
      rw [appendLogRecord_index]
      exact btreeGet_some_remove _ _ _ hsome
    simp [EngineM.delete, hk, hsome, hrem]

/-- C5 witness: deleting the present key `[107]` from an engine holding
it appends the tombstone and removes the index entry; the `Result` is
`Ok`. -/
theorem c5_delete_witness :
    c5Engine.delete [107] =
      (.ok (),
       { (c5Engine.appendLogRecord ⟨[107], [], .Deleted⟩).1 with
           index := (btreeRemove (c5Engine.appendLogRecord ⟨[107], [], .Deleted⟩).1.index
             [107]).2 }) :=
  (c5_delete c5Engine [107] (by decide)).2 ⟨0, 0⟩ rfl

/-! ### Claim C6: segment size bound -/

/-- The inductive invariant behind C6: running a list of `put`s (i)
keeps the options, (ii) preserves "every directory file is within the
bound or is the image of a single record", and (iii) if the final engine
still has no idle files then none ever existed, the active file grew by
exactly the cumulative encoded size, and it stayed within the bound if
it started there. -/
theorem runPuts_inv (S : Nat) :
    ∀ (puts : List (List Nat × List Nat)) (e e' : EngineM),
      e.options.dataFileSize = S →
      runPuts e puts = .ok e' →
      (∀ df ∈ engineFiles e, df.content.length ≤ S ∨ ∃ r : LogRecord, df.content = r.encode) →
      (e'.options.dataFileSize = S ∧
       (∀ df ∈ engineFiles e', df.content.length ≤ S ∨ ∃ r : LogRecord, df.content = r.encode) ∧
       (e'.idleFile = [] →
         e.idleFile = [] ∧
         e'.activeFile.content.length = e.activeFile.content.length + totalEncodedSize puts ∧
         (e.activeFile.content.length ≤ S → e'.activeFile.content.length ≤ S))) := by
  intro puts
  induction puts with
  | nil =>
    intro e e' hS hrun hinv
    rw [runPuts] at hrun
    cases hrun
    exact ⟨hS, hinv, fun h => ⟨h, by simp [totalEncodedSize], fun hb => hb⟩⟩
  | cons kv rest ih =>
    intro e e' hS hrun hinv
    rw [runPuts] at hrun
    rcases hput : e.put kv.1 kv.2 with er | e1
    · rw [hput] at hrun; cases hrun
    · rw [hput] at hrun
      rw [EngineM.put] at hput
      by_cases hk : kv.1 = []
      · rw [if_pos hk] at hput; cases hput
      · rw [if_neg hk] at hput
        have he1 : e1 = { (e.appendLogRecord ⟨kv.1, kv.2, .Normal⟩).1 with
            index := btreeInsert (e.appendLogRecord ⟨kv.1, kv.2, .Normal⟩).1.index kv.1
              (e.appendLogRecord ⟨kv.1, kv.2, .Normal⟩).2 } := by
          cases hput; rfl
        have happ := c3_append_log_record e ⟨kv.1, kv.2, .Normal⟩
        have hopts1 : e1.options.dataFileSize = S := by
          rw [he1]; simpa [happ.2.2.2.1] using hS
        by_cases hrot : e.options.dataFileSize <
            e.activeFile.content.length + (LogRecord.mk kv.1 kv.2 .Normal).encode.length
        · -- rotation: the old active file is retired, the fresh one holds
          -- exactly the new record
          obtain ⟨hid, hidle, hcontent⟩ := happ.1 hrot
          have hinv1 : ∀ df ∈ engineFiles e1,
              df.content.length ≤ S ∨ ∃ r : LogRecord, df.content = r.encode := by
            intro df hdf
            rw [he1] at hdf
            simp only [engineFiles, List.mem_append, List.mem_map,
              List.mem_singleton] at hdf
            rcases hdf with ⟨p, hp, hpe⟩ | hdf
            · rw [hidle] at hp
              rcases List.mem_cons.mp hp with hp | hp
              · have hdfe : df = e.activeFile.sync := by rw [← hpe, hp]
                have hmem : e.activeFile ∈ engineFiles e := by simp [engineFiles]
                have := hinv e.activeFile hmem
                rw [hdfe]
                simpa [DataFileM.sync] using this
              · have hmem : p.2 ∈ engineFiles e := by
                  simp only [engineFiles, List.mem_append, List.mem_map]
                  exact Or.inl ⟨p, hp, rfl⟩
                rw [← hpe]
                exact hinv p.2 hmem
            · rw [hdf, hcontent]
              exact Or.inr ⟨⟨kv.1, kv.2, .Normal⟩, rfl⟩
          obtain ⟨ho', hi', hone⟩ := ih e1 e' hopts1 hrun hinv1
          refine ⟨ho', hi', fun hidle' => absurd (hone hidle').1 ?_⟩
          rw [he1]
          simp [hidle]
        · push_neg at hrot
          obtain ⟨hid, hidle, hcontent⟩ := happ.2.1 hrot
          have hinv1 : ∀ df ∈ engineFiles e1,
              df.content.length ≤ S ∨ ∃ r : LogRecord, df.content = r.encode := by
            intro df hdf
            rw [he1] at hdf
            simp only [engineFiles, List.mem_append, List.mem_map,
              List.mem_singleton] at hdf
            rcases hdf with ⟨p, hp, hpe⟩ | hdf
            · rw [hidle] at hp
              have hmem : p.2 ∈ engineFiles e := by
                simp only [engineFiles, List.mem_append, List.mem_map]
                exact Or.inl ⟨p, hp, rfl⟩
              rw [← hpe]
              exact hinv p.2 hmem
            · left
              rw [hdf, hcontent]
              simp only [List.length_append]
              rw [hS] at hrot
              omega
          obtain ⟨ho', hi', hone⟩ := ih e1 e' hopts1 hrun hinv1
          refine ⟨ho', hi', fun hidle' => ?_⟩
          obtain ⟨hnil1, hlen1, hbnd1⟩ := hone hidle'
          have hnil : e.idleFile = [] := by
            rw [he1] at hnil1
            simpa [hidle] using hnil1
          refine ⟨hnil, ?_, ?_⟩
          · rw [hlen1, he1]
            simp only [hcontent, List.length_append, totalEncodedSize, List.map_cons,
              List.sum_cons]
            simp [totalEncodedSize, LogRecord.size]
            omega
          · intro _
            refine hbnd1 ?_
            rw [he1]
            simp only [hcontent, List.length_append]
            rw [hS] at hrot
            omega

/-- C6 counterexample: with `data_file_size = 10`, two puts whose records
each encode to 20 bytes leave the directory with files 0 (empty), 1
(20 bytes) and the active file 2 (20 bytes): file 1 is *not* the last
(highest-id) file, yet its size 20 exceeds S = 10 — refuting "every
file's size is at most S except possibly the last". -/
theorem c6_nonlast_file_exceeds_bound :
    c6Engine.activeFile.id = 2 ∧
    (c6Engine.idleFile.map (fun p => (p.1, p.2.content.length))) = [(1, 20), (0, 0)] ∧
    runPuts (engineInit 10 false) c6Puts = .ok c6Engine :=
  ⟨rfl, rfl, rfl⟩

/-- C6 (amended): after any sequence of successful puts on a fresh
engine with `data_file_size = S`, if the cumulative encoded size exceeds
S the directory holds at least two files; and every file's size is at
most S except files that are the image of a single encoded record (in
particular such a file exceeds S by at most that one record's encoded
length). -/
theorem c6_segment_bound_amended (S : Nat) (sw : Bool)
    (puts : List (List Nat × List Nat)) (e' : EngineM)
    (h : runPuts (engineInit S sw) puts = .ok e') :
    (S < totalEncodedSize puts → 2 ≤ (engineFiles e').length) ∧
    (∀ df ∈ engineFiles e', df.content.length ≤ S ∨ ∃ r : LogRecord, df.content = r.encode) := by
  have hinv0 : ∀ df ∈ engineFiles (engineInit S sw),
      df.content.length ≤ S ∨ ∃ r : LogRecord, df.content = r.encode := by
    intro df hdf
    simp only [engineFiles, engineInit, List.map_nil, List.nil_append,
      List.mem_singleton] at hdf
    subst hdf
    simp
  obtain ⟨ho', hi', hone⟩ := runPuts_inv S puts (engineInit S sw) e' rfl h hinv0
  refine ⟨fun hgt => ?_, hi'⟩
  by_cases hidle : e'.idleFile = []
  · obtain ⟨-, hlen, hbnd⟩ := hone hidle
    simp only [engineInit, List.length_nil] at hlen hbnd
    omega
  · simp only [engineFiles, List.length_append, List.length_map, List.length_singleton]
    have : e'.idleFile.length ≠ 0 := fun hz => hidle (List.length_eq_zero.mp hz)
    omega

/-- C6 witness: the amended theorem at the concrete run of `c6Puts`
(cumulative encoded size 40 > S = 10): the directory holds at least two
files. -/
theorem c6_segment_bound_witness :
    2 ≤ (engineFiles c6Engine).length :=
  (c6_segment_bound_amended 10 false c6Puts c6Engine rfl).1 (by decide)

/-! ### Claim C9: iterator order -/

/-- The `while` loop of `BtreeIterator::next` relative to filtering: from
cursor `i` with sufficient fuel it yields exactly the head of the
filtered suffix, advancing past it. -/
theorem scanFromAux_spec (items : List (List Nat × LogRecordPos)) (f : List Nat → Bool) :
    ∀ fuel i, items.length ≤ i + fuel →
      (match scanFromAux items f fuel i with
       | none => (items.drop i).filter (fun x => f x.1) = []
       | some (item, i') =>
         i < i' ∧ i' ≤ items.length ∧
         (items.drop i).filter (fun x => f x.1) =
           item :: (items.drop i').filter (fun x => f x.1)) := by
  intro fuel
  induction fuel with
  | zero =>
    intro i hle
    rw [scanFromAux]
    rw [List.drop_eq_nil_of_le (by omega)]
    rfl
  | succ g ih =>
    intro i hle
    rw [scanFromAux]
    cases hgi : items[i]? with
    | none =>
      have hge : items.length ≤ i := by
        by_contra hlt
        push_neg at hlt
        rw [List.getElem?_eq_getElem hlt] at hgi
        cases hgi
      rw [List.drop_eq_nil_of_le hge]
      rfl
    | some item =>
      have hi : i < items.length := by
        by_contra hcon
        push_neg at hcon
        rw [List.getElem?_eq_none hcon] at hgi
        cases hgi
      have hgetl : items[i] = item := by
        have h2 := List.getElem?_eq_getElem hi
        rw [hgi] at h2
        exact (Option.some.inj h2).symm
      have hdrop : items.drop i = item :: items.drop (i + 1) := by
        rw [List.drop_eq_getElem_cons hi, hgetl]
      by_cases hf : f item.1 = true
      · simp only [hf, if_true]
        refine ⟨by omega, by omega, ?_⟩
        rw [hdrop]
        simp [hf]
      · simp only [hf, if_false]
        have hff : f item.1 = false := by simpa using hf
        have hspec := ih (i + 1) (by omega)
        cases hsc : scanFromAux items f g (i + 1) with
        | none =>
          rw [hsc] at hspec
          rw [hdrop]
          simp only [List.filter_cons, hff, Bool.false_eq_true, if_false]
          exact hspec
        | some pr =>
          obtain ⟨item', i'⟩ := pr
          rw [hsc] at hspec
          obtain ⟨h1, h2, h3⟩ := hspec
          refine ⟨by omega, h2, ?_⟩
          rw [hdrop]
          simp only [List.filter_cons, hff, Bool.false_eq_true, if_false]
          exact h3

/-- Exhausting the iterator from cursor `i` yields exactly the filtered
suffix of the (snapshot) items. -/
theorem iterCollectAux_eq (items : List (List Nat × LogRecordPos)) (o : IterOptionsM) :
    ∀ fuel i, items.length < i + fuel →
      iterCollectAux fuel (iterNextM ⟨items, i, o⟩) =
        (items.drop i).filter (fun x => o.filter x.1) := by
  intro fuel
  induction fuel with
  | zero =>
    intro i h
    rw [iterCollectAux, List.drop_eq_nil_of_le (by omega)]
    rfl
  | succ g ih =>
    intro i h
    by_cases hlen : items.length ≤ i
    · have hnext : iterNextM ⟨items, i, o⟩ = none := by
        simp [iterNextM, hlen]
      rw [hnext, List.drop_eq_nil_of_le hlen]
      rfl
    · push_neg at hlen
      have hspec := scanFromAux_spec items o.filter (items.length - i) i (by omega)
      cases hsc : scanFromAux items o.filter (items.length - i) i with
      | none =>
        rw [hsc] at hspec
        have hnext : iterNextM ⟨items, i, o⟩ = none := by
          simp [iterNextM, hsc, Nat.not_le.mpr hlen]
        rw [hnext, hspec]
        rfl
      | some pr =>
        obtain ⟨item, i2⟩ := pr
        rw [hsc] at hspec
        obtain ⟨hlt, hle2, hfe⟩ := hspec
        have hnext : iterNextM ⟨items, i, o⟩ = some (item, ⟨items, i2, o⟩) := by
          simp [iterNextM, hsc, Nat.not_le.mpr hlen]
        rw [hnext, iterCollectAux, ih i2 (by omega), hfe]

/-- The engine/index iterator output: the snapshot items (reversed when
`reverse` is set), filtered by the key predicate, in order. -/
theorem iterCollect_eq (tree : List (List Nat × LogRecordPos)) (o : IterOptionsM) :
    iterCollect (btreeIterator tree o) =
      (if o.reverse then tree.reverse else tree).filter (fun x => o.filter x.1) := by
  have h := iterCollectAux_eq (if o.reverse then tree.reverse else tree) o
    ((if o.reverse then tree.reverse else tree).length + 1) 0 (by omega)
  simpa [iterCollect, btreeIterator] using h

/-- C9: on every sorted index contents (what a `BTreeMap` yields), the
iterator with `reverse = false` returns the items in the map's order,
skipping exactly the keys the filter rejects, and the yielded keys are
strictly ascending in byte-lexicographic order; with `reverse = true`
they are strictly descending. -/
theorem c9_iterator_order (tree : List (List Nat × LogRecordPos)) (f : List Nat → Bool)
    (hs : tree.Pairwise (fun a b => keyLtb a.1 b.1 = true)) :
    iterCollect (btreeIterator tree ⟨false, f⟩) = tree.filter (fun x => f x.1) ∧
    iterCollect (btreeIterator tree ⟨true, f⟩) = tree.reverse.filter (fun x => f x.1) ∧
    ((iterCollect (btreeIterator tree ⟨false, f⟩)).map Prod.fst).Pairwise
      (fun a b => keyLtb a b = true) ∧
    ((iterCollect (btreeIterator tree ⟨true, f⟩)).map Prod.fst).Pairwise
      (fun a b => keyLtb b a = true) := by
  have h1 : iterCollect (btreeIterator tree ⟨false, f⟩) = tree.filter (fun x => f x.1) := by
    simpa using iterCollect_eq tree ⟨false, f⟩
  have h2 : iterCollect (btreeIterator tree ⟨true, f⟩) =
      tree.reverse.filter (fun x => f x.1) := by
    simpa using iterCollect_eq tree ⟨true, f⟩
  refine ⟨h1, h2, ?_, ?_⟩
  · rw [h1, List.pairwise_map]
    exact hs.filter _
  · rw [h2, List.pairwise_map]
    refine List.Pairwise.filter _ ?_
    exact List.pairwise_reverse.mpr hs

/-- C9 witness: the theorem at a concrete three-key sorted index with a
filter rejecting the middle key. -/
theorem c9_iterator_order_witness :
    iterCollect (btreeIterator c9Tree ⟨false, c9Filter⟩) =
      c9Tree.filter (fun x => c9Filter x.1) ∧
    iterCollect (btreeIterator c9Tree ⟨true, c9Filter⟩) =
      c9Tree.reverse.filter (fun x => c9Filter x.1) ∧
    ((iterCollect (btreeIterator c9Tree ⟨false, c9Filter⟩)).map Prod.fst).Pairwise
      (fun a b => keyLtb a b = true) ∧
    ((iterCollect (btreeIterator c9Tree ⟨true, c9Filter⟩)).map Prod.fst).Pairwise
      (fun a b => keyLtb b a = true) :=
  c9_iterator_order c9Tree c9Filter (by decide)

end AilurusKV
